import Mathlib

/-!
Verification of the `uni` plugin manager (`src/main.rs`).

The development shallowly embeds the program: the registry directory is a
list of directory entries (name, readability flags, byte content modelled as
`List Char`), child processes are oracles supplied as function arguments, and
the serde_json layer is modelled by an executable JSON renderer/parser pair
(pretty printing exactly as `serde_json::to_vec_pretty` does for the
`Manifest` struct, parsing arbitrary byte strings).
-/

/-- JSON documents as serde_json models them.  Number tokens are kept as raw
lexemes: no manifest field is numeric, so their value is never inspected. -/
inductive Json where
  | null : Json
  | bool : Bool → Json
  | num : String → Json
  | str : String → Json
  | arr : List Json → Json
  | obj : List (String × Json) → Json

/-- JSON insignificant whitespace. -/
def isWs (c : Char) : Bool :=
  c = ' ' ∨ c = '\n' ∨ c = '\t' ∨ c = '\x0d'

/-- Skip insignificant whitespace. -/
def skipWs (cs : List Char) : List Char := cs.dropWhile isWs

/-- Lower-case hex digit, as serde_json emits in `\u00XX` escapes. -/
def hexDigitChar (n : Nat) : Char :=
  if n < 10 then Char.ofNat (48 + n) else Char.ofNat (87 + n)

/-- Value of one hex digit (either case accepted by the JSON parser). -/
def hexVal (c : Char) : Option Nat :=
  if 48 ≤ c.toNat ∧ c.toNat ≤ 57 then some (c.toNat - 48)
  else if 97 ≤ c.toNat ∧ c.toNat ≤ 102 then some (c.toNat - 87)
  else if 65 ≤ c.toNat ∧ c.toNat ≤ 70 then some (c.toNat - 55)
  else none

/-- How serde_json escapes one character inside a JSON string literal:
quote and backslash get a short escape, the named control characters get
their two-character escapes, other control characters get `\u00XX`, and
everything else is emitted raw. -/
def escapeChar (c : Char) : List Char :=
  if c = '"' then ['\\', '"']
  else if c = '\\' then ['\\', '\\']
  else if c = '\x08' then ['\\', 'b']
  else if c = '\x09' then ['\\', 't']
  else if c = '\x0a' then ['\\', 'n']
  else if c = '\x0c' then ['\\', 'f']
  else if c = '\x0d' then ['\\', 'r']
  else if c.toNat < 32 then
    ['\\', 'u', '0', '0', hexDigitChar (c.toNat / 16), hexDigitChar (c.toNat % 16)]
  else [c]

/-- Escaped body of a JSON string literal. -/
def escBody (cs : List Char) : List Char :=
  cs.foldr (fun c acc => escapeChar c ++ acc) []

/-- A full JSON string literal, quotes included. -/
def renderString (s : String) : List Char := '"' :: (escBody s.data ++ ['"'])

/-- Lex four hex digits. -/
def parseHex4 : List Char → Option (Nat × List Char)
  | h1 :: h2 :: h3 :: h4 :: r =>
    match hexVal h1, hexVal h2, hexVal h3, hexVal h4 with
    | some a, some b, some c, some d => some (((a * 16 + b) * 16 + c) * 16 + d, r)
    | _, _, _, _ => none
  | _ => none

theorem parseHex4_length (cs : List Char) (v : Nat) (r : List Char)
    (h : parseHex4 cs = some (v, r)) : r.length + 4 = cs.length := by
  match cs, h with
  | h1 :: h2 :: h3 :: h4 :: r', h =>
    simp only [parseHex4] at h
    split at h <;> simp_all

/-- Decode a `\uXXXX` escape (the `\u` already consumed): a valid scalar
value stands alone, a high surrogate must be followed by `\u` and a low
surrogate, anything else is rejected. -/
def parseUnicodeEsc (cs : List Char) : Option (Char × List Char) :=
  match parseHex4 cs with
  | none => none
  | some (v, r2) =>
    if 0xD800 ≤ v ∧ v ≤ 0xDBFF then
      match r2 with
      | b1 :: u1 :: r2' =>
        if b1 = '\\' ∧ u1 = 'u' then
          match parseHex4 r2' with
          | none => none
          | some (w, r3) =>
            if 0xDC00 ≤ w ∧ w ≤ 0xDFFF then
              some (Char.ofNat (0x10000 + (v - 0xD800) * 1024 + (w - 0xDC00)), r3)
            else none
        else none
      | _ => none
    else if 0xDC00 ≤ v ∧ v ≤ 0xDFFF then none
    else some (Char.ofNat v, r2)

theorem parseUnicodeEsc_length (cs : List Char) (c : Char) (r : List Char)
    (h : parseUnicodeEsc cs = some (c, r)) : r.length < cs.length := by
  unfold parseUnicodeEsc at h
  cases hh : parseHex4 cs with
  | none => rw [hh] at h; simp at h
  | some p =>
    obtain ⟨v, r2⟩ := p
    rw [hh] at h
    have l1 := parseHex4_length cs v r2 hh
    simp only at h
    by_cases hs : 0xD800 ≤ v ∧ v ≤ 0xDBFF
    · rw [if_pos hs] at h
      cases r2 with
      | nil => simp at h
      | cons b1 t1 =>
        cases t1 with
        | nil => simp at h
        | cons u1 r2' =>
          simp only at h
          split at h
          · cases hh2 : parseHex4 r2' with
            | none => rw [hh2] at h; simp at h
            | some q =>
              obtain ⟨w, r3⟩ := q
              rw [hh2] at h
              have l2 := parseHex4_length r2' w r3 hh2
              simp only at h
              split at h
              · simp only [Option.some.injEq, Prod.mk.injEq] at h
                rw [← h.2]
                simp only [List.length_cons] at l1 ⊢
                omega
              · simp at h
          · simp at h
    · rw [if_neg hs] at h
      split at h
      · simp at h
      · simp only [Option.some.injEq, Prod.mk.injEq] at h
        rw [← h.2]
        omega

/-- Decode one character of a JSON string body: `none` on bad input,
`some (none, rest)` at the closing quote, `some (some c, rest)` for one
decoded character.  Raw control characters are rejected, as serde_json
rejects them. -/
def strStep : List Char → Option (Option Char × List Char)
  | [] => none
  | c :: rest =>
    if c = '"' then some (none, rest)
    else if c = '\\' then
      match rest with
      | [] => none
      | e :: r =>
        if e = '"' then some (some '"', r)
        else if e = '\\' then some (some '\\', r)
        else if e = '/' then some (some '/', r)
        else if e = 'b' then some (some '\x08', r)
        else if e = 'f' then some (some '\x0c', r)
        else if e = 'n' then some (some '\x0a', r)
        else if e = 'r' then some (some '\x0d', r)
        else if e = 't' then some (some '\x09', r)
        else if e = 'u' then (parseUnicodeEsc r).map fun p => (some p.1, p.2)
        else none
    else if 32 ≤ c.toNat then some (some c, rest)
    else none

set_option maxHeartbeats 1000000 in
theorem strStep_length (cs : List Char) (oc : Option Char) (r : List Char)
    (h : strStep cs = some (oc, r)) : r.length < cs.length := by
  cases cs with
  | nil => simp [strStep] at h
  | cons c rest =>
    simp only [strStep] at h
    repeat' split at h
    all_goals
      first
      | exact Option.noConfusion h
      | (simp only [Option.some.injEq, Prod.mk.injEq] at h
         rw [← h.2]
         simp only [List.length_cons]
         omega)
      | (rw [Option.map_eq_some'] at h
         obtain ⟨⟨c2, r2⟩, hu, heq⟩ := h
         have hl := parseUnicodeEsc_length _ c2 r2 hu
         simp only [Prod.mk.injEq] at heq
         rw [← heq.2]
         simp only [List.length_cons]
         omega)

/-- Parse the body of a JSON string literal (the opening quote already
consumed), returning the decoded characters and the remaining input.  The
fuel is an artifact of the embedding: every `strStep` consumes at least one
character (`strStep_length`), so `input.length + 1` — what every call site
passes — always suffices. -/
def parseStrBody : Nat → List Char → Option (List Char × List Char)
  | 0, _ => none
  | fuel + 1, cs =>
    match strStep cs with
    | none => none
    | some (none, rest) => some ([], rest)
    | some (some c, rest) => (parseStrBody fuel rest).map fun p => (c :: p.1, p.2)

/-- Characters a JSON number lexeme may contain. -/
def isNumChar (c : Char) : Bool :=
  c.isDigit ∨ c = '-' ∨ c = '+' ∨ c = '.' ∨ c = 'e' ∨ c = 'E'

/-- Lex one number token (kept raw; manifests never contain numbers). -/
def parseNumLex (cs : List Char) : Option (Json × List Char) :=
  let p := cs.span isNumChar
  if p.1.isEmpty then none else some (.num ⟨p.1⟩, p.2)

/-- Lex one keyword token (`null`, `true`, `false`). -/
def parseWordLex (cs : List Char) : Option (Json × List Char) :=
  let p := cs.span fun c => c.isAlpha
  if p.1 = "null".data then some (.null, p.2)
  else if p.1 = "true".data then some (.bool true, p.2)
  else if p.1 = "false".data then some (.bool false, p.2)
  else none

mutual

/-- Parse one JSON value (fuel-indexed recursive descent). -/
def parseVal : Nat → List Char → Option (Json × List Char)
  | 0, _ => none
  | fuel + 1, input =>
    match skipWs input with
    | [] => none
    | c :: rest =>
      if c = '"' then (parseStrBody (rest.length + 1) rest).map fun p => (.str ⟨p.1⟩, p.2)
      else if c = '\x7b' then (parseFields fuel rest).map fun p => (.obj p.1, p.2)
      else if c = '[' then (parseItems fuel rest).map fun p => (.arr p.1, p.2)
      else if c = 'n' ∨ c = 't' ∨ c = 'f' then parseWordLex (c :: rest)
      else if c = '-' ∨ c.isDigit then parseNumLex (c :: rest)
      else none

/-- Parse object fields, the opening brace already consumed. -/
def parseFields : Nat → List Char → Option (List (String × Json) × List Char)
  | 0, _ => none
  | fuel + 1, input =>
    match skipWs input with
    | [] => none
    | c :: rest =>
      if c = '\x7d' then some ([], rest)
      else if c = '"' then
        match parseStrBody (rest.length + 1) rest with
        | none => none
        | some (k, r1) =>
          match skipWs r1 with
          | [] => none
          | c2 :: r2 =>
            if c2 = ':' then
              match parseVal fuel r2 with
              | none => none
              | some (v, r3) =>
                match parseFieldsTail fuel r3 with
                | none => none
                | some (fs, r4) => some ((⟨k⟩, v) :: fs, r4)
            else none
      else none

/-- Parse the continuation of an object: either the closing brace or a comma
followed by another field. -/
def parseFieldsTail : Nat → List Char → Option (List (String × Json) × List Char)
  | 0, _ => none
  | fuel + 1, input =>
    match skipWs input with
    | [] => none
    | c :: rest =>
      if c = '\x7d' then some ([], rest)
      else if c = ',' then
        match skipWs rest with
        | [] => none
        | c0 :: r0 =>
          if c0 = '"' then
            match parseStrBody (r0.length + 1) r0 with
            | none => none
            | some (k, r1) =>
              match skipWs r1 with
              | [] => none
              | c2 :: r2 =>
                if c2 = ':' then
                  match parseVal fuel r2 with
                  | none => none
                  | some (v, r3) =>
                    match parseFieldsTail fuel r3 with
                    | none => none
                    | some (fs, r4) => some ((⟨k⟩, v) :: fs, r4)
                else none
          else none
      else none

/-- Parse array items, the opening bracket already consumed. -/
def parseItems : Nat → List Char → Option (List Json × List Char)
  | 0, _ => none
  | fuel + 1, input =>
    match skipWs input with
    | [] => none
    | c :: rest =>
      if c = ']' then some ([], rest)
      else
        match parseVal fuel (c :: rest) with
        | none => none
        | some (v, r1) =>
          match parseItemsTail fuel r1 with
          | none => none
          | some (vs, r2) => some (v :: vs, r2)

/-- Parse the continuation of an array: either the closing bracket or a comma
followed by another item. -/
def parseItemsTail : Nat → List Char → Option (List Json × List Char)
  | 0, _ =>  none
  | fuel + 1, input =>
    match skipWs input with
    | [] => none
    | c :: rest =>
      if c = ']' then some ([], rest)
      else if c = ',' then
        match parseVal fuel rest with
        | none => none
        | some (v, r1) =>
          match parseItemsTail fuel r1 with
          | none => none
          | some (vs, r2) => some (v :: vs, r2)
      else none

end

/-- Model of `serde_json::from_slice` at the document level: one JSON value, then
nothing but whitespace up to the end of input. -/
def parseJsonBytes (cs : List Char) : Option Json :=
  match parseVal (cs.length + 1) cs with
  | some (j, rest) => if (skipWs rest).isEmpty then some j else none
  | none => none

/-- Struct `SubCmdMeta` from `src/main.rs` lines 38-42. -/
structure SubCmdMeta where
  name : String
  description : String
deriving DecidableEq, Repr

/-- Struct `Manifest` from `src/main.rs` lines 44-51 (`commands` carries
`#[serde(default)]`). -/
structure Manifest where
  name : String
  description : String
  version : String
  commands : List SubCmdMeta
deriving DecidableEq, Repr

/-- serde string extraction: only a JSON string deserializes into `String`. -/
def getStr : Json → Option String
  | .str s => some s
  | _ => none

/-- Field loop of the derived `Deserialize` for `SubCmdMeta`: fields may come
in any order, unknown fields are ignored, duplicate known fields and missing
required fields are errors. -/
def decodeSubGo : List (String × Json) → Option String → Option String → Option SubCmdMeta
  | [], some n, some d => some ⟨n, d⟩
  | [], _, _ => none
  | (k, v) :: rest, n, d =>
    if k = "name" then
      match n with
      | some _ => none
      | none => (getStr v).bind fun s => decodeSubGo rest (some s) d
    else if k = "description" then
      match d with
      | some _ => none
      | none => (getStr v).bind fun s => decodeSubGo rest n (some s)
    else decodeSubGo rest n d

/-- Derived `Deserialize` for `SubCmdMeta`. -/
def decodeSubCmd : Json → Option SubCmdMeta
  | .obj fs => decodeSubGo fs none none
  | _ => none

/-- Elementwise deserialization of a JSON array into `Vec<SubCmdMeta>`:
fail-fast, in order. -/
def decodeSubItems : List Json → Option (List SubCmdMeta)
  | [] => some []
  | j :: js =>
    match decodeSubCmd j with
    | none => none
    | some s => (decodeSubItems js).map fun l => s :: l

/-- Deserializing `Vec<SubCmdMeta>`: the value must be an array and every
element must deserialize. -/
def decodeSubList : Json → Option (List SubCmdMeta)
  | .arr xs => decodeSubItems xs
  | _ => none

/-- Field loop of the derived `Deserialize` for `Manifest`; the `commands`
slot defaults to the empty list when the field is absent
(`#[serde(default)]`). -/
def decodeManGo : List (String × Json) → Option String → Option String → Option String →
    Option (List SubCmdMeta) → Option Manifest
  | [], some n, some d, some v, c => some ⟨n, d, v, c.getD []⟩
  | [], _, _, _, _ => none
  | (k, val) :: rest, n, d, v, c =>
    if k = "name" then
      match n with
      | some _ => none
      | none => (getStr val).bind fun s => decodeManGo rest (some s) d v c
    else if k = "description" then
      match d with
      | some _ => none
      | none => (getStr val).bind fun s => decodeManGo rest n (some s) v c
    else if k = "version" then
      match v with
      | some _ => none
      | none => (getStr val).bind fun s => decodeManGo rest n d (some s) c
    else if k = "commands" then
      match c with
      | some _ => none
      | none => (decodeSubList val).bind fun l => decodeManGo rest n d v (some l)
    else decodeManGo rest n d v c

/-- Derived `Deserialize` for `Manifest`. -/
def decodeManifest : Json → Option Manifest
  | .obj fs => decodeManGo fs none none none none
  | _ => none

/-- Model of `serde_json::from_slice::<Manifest>` on raw bytes. -/
def parseManifestBytes (cs : List Char) : Option Manifest :=
  (parseJsonBytes cs).bind decodeManifest

/-- Newline plus the two-space-per-level indentation of serde_json's pretty
printer. -/
def nlInd (k : Nat) : List Char := '\n' :: List.replicate (2 * k) ' '

/-- Pretty-printed serialization of one `SubCmdMeta`, as it appears as an
element of the `commands` array (nesting level 2). -/
def renderSubCmd (s : SubCmdMeta) : List Char :=
  '\x7b' :: (nlInd 3 ++ renderString "name" ++ ':' :: ' ' :: renderString s.name ++ ',' ::
    (nlInd 3 ++ renderString "description" ++ ':' :: ' ' :: renderString s.description ++
      nlInd 2 ++ ['\x7d']))

/-- Comma-separated continuation of the `commands` array. -/
def renderCmdTail : List SubCmdMeta → List Char
  | [] => []
  | c :: cs => ',' :: (nlInd 2 ++ (renderSubCmd c ++ renderCmdTail cs))

/-- Pretty-printed serialization of the `commands` array. -/
def renderCommands : List SubCmdMeta → List Char
  | [] => ['[', ']']
  | c :: cs => '[' :: (nlInd 2 ++ renderSubCmd c ++ renderCmdTail cs ++ nlInd 1 ++ [']'])

/-- Model of `serde_json::to_vec_pretty(&manifest)` (main.rs line 93): the derived
`Serialize` emits the four fields in declaration order, pretty-printed with
two-space indentation. -/
def renderManifest (m : Manifest) : List Char :=
  '\x7b' :: (nlInd 1 ++ renderString "name" ++ ':' :: ' ' :: renderString m.name ++ ',' ::
    (nlInd 1 ++ renderString "description" ++ ':' :: ' ' :: renderString m.description ++ ',' ::
      (nlInd 1 ++ renderString "version" ++ ':' :: ' ' :: renderString m.version ++ ',' ::
        (nlInd 1 ++ renderString "commands" ++ ':' :: ' ' :: renderCommands m.commands ++
          nlInd 0 ++ ['\x7d']))))

/-- The JSON document the serialization of a `SubCmdMeta` denotes. -/
def subCmdJson (s : SubCmdMeta) : Json :=
  .obj [("name", .str s.name), ("description", .str s.description)]

/-- The JSON document the serialization of a `Manifest` denotes. -/
def manifestJson (m : Manifest) : Json :=
  .obj [("name", .str m.name), ("description", .str m.description),
    ("version", .str m.version), ("commands", .arr (m.commands.map subCmdJson))]

/-- One entry of the plugin registry directory.  `entryOk` models whether the
`read_dir` iterator yields `Ok` for this entry, `readable` whether
`fs::read` succeeds, `exec` the execute permission bit. -/
structure DirEntry where
  name : String
  entryOk : Bool
  isFile : Bool
  readable : Bool
  exec : Bool
  content : List Char
deriving DecidableEq, Repr

/-- The plugin registry directory.  `dirReadable` models whether
`fs::read_dir(plugin_dir())` succeeds. -/
structure Registry where
  dirReadable : Bool
  entries : List DirEntry
deriving DecidableEq, Repr

/-- A healthy regular file. -/
def mkFile (name : String) (content : List Char) (exec : Bool) : DirEntry :=
  ⟨name, true, true, true, exec, content⟩

/-- Look a file up by name. -/
def fsFind (r : Registry) (name : String) : Option DirEntry :=
  r.entries.find? fun e => e.name == name

/-- Create or truncate-and-overwrite a file (`fs::copy` / `fs::write`). -/
def fsWrite (r : Registry) (name : String) (content : List Char) (exec : Bool) : Registry :=
  if r.entries.any fun e => e.name == name then
    { r with entries := r.entries.map fun e => if e.name == name then mkFile name content exec else e }
  else
    { r with entries := r.entries ++ [mkFile name content exec] }

/-- Model of `fs::remove_file`. -/
def fsRemove (r : Registry) (name : String) : Registry :=
  { r with entries := r.entries.filter fun e => !(e.name == name) }

/-- Model of `fs::read` on a directory entry: fails on non-files and unreadable
files. -/
def readFile (e : DirEntry) : Option (List Char) :=
  if e.isFile ∧ e.readable then some e.content else none

/-- Rust `Path::extension` on a plain file name: the portion after the last
dot, unless the name starts with its only dot. -/
def extension (name : String) : Option String :=
  match name.data.reverse.span fun c => c != '.' with
  | (revExt, '.' :: revStem) => if revStem.isEmpty then none else some ⟨revExt.reverse⟩
  | _ => none

/-- The sidecar check `p.extension() == Some("json")` used by
`list_plugins`, `load_manifests` and `import_plugins`. -/
def hasJsonExt (name : String) : Bool := extension name == some "json"

/-- Operation `put` of the Registry Store (the write steps of `validate_and_copy`,
main.rs lines 84-93): copy the script under `manifest.name`, set the execute
permission, then write the pretty-printed manifest sidecar under
`manifest.name ++ ".json"`. -/
def put (r : Registry) (m : Manifest) (scriptBytes : List Char) : Registry :=
  fsWrite (fsWrite r m.name scriptBytes true) (m.name ++ ".json") (renderManifest m) false

/-- Captured output of the introspection child process
(`uv run <script> --manifest`). -/
structure ProcOutput where
  success : Bool
  stdout : List Char
  stderr : List Char
deriving DecidableEq, Repr

/-- The warning printed when the introspection run exits non-zero
(main.rs lines 75-81); it embeds the captured standard error. -/
def warnDiag (stderr : List Char) : List Char :=
  ("plugin did not return valid manifest (exit status):\n").data ++ stderr

/-- Function `validate_and_copy` (main.rs lines 68-96).  `spawn` is the outcome of the
introspection run (`Err` when the interpreter cannot be spawned), `origName`
the candidate file's own name (the source only ever uses the candidate path
to read/copy its bytes, which arrive here as `scriptBytes`).  Returns the
warnings printed on stderr, the registry after the call, and the admission
result. -/
def validate_and_copy (r : Registry) (scriptBytes : List Char) (_origName : String)
    (spawn : Except String ProcOutput) : List (List Char) × Registry × Except String Manifest :=
  match spawn with
  | .error e => ([], r, .error e)
  | .ok out =>
    let warns := if out.success then [] else [warnDiag out.stderr]
    match parseManifestBytes out.stdout with
    | none => (warns, r, .error "invalid manifest JSON")
    | some m => (warns, put r m scriptBytes, .ok m)

/-- Function `remove_plugin` (main.rs lines 98-105): remove the script if it exists,
remove the sidecar if it exists, and succeed in every case (in the
single-process model the guarded `fs::remove_file` calls cannot fail). -/
def remove_plugin (r : Registry) (name : String) : Except String Registry :=
  let r1 := if (fsFind r name).isSome then fsRemove r name else r
  let r2 := if (fsFind r1 (name ++ ".json")).isSome then fsRemove r1 (name ++ ".json") else r1
  .ok r2

/-- Loop body of `list_plugins` (main.rs lines 107-117): every `?` in the
source propagates, so a failed directory entry, an unreadable sidecar or an
unparsable sidecar aborts the whole listing. -/
def listGo : List DirEntry → Except String (List Manifest)
  | [] => .ok []
  | e :: es =>
    if ¬ e.entryOk then .error "readdir entry error"
    else if hasJsonExt e.name then
      match readFile e with
      | none => .error "read error"
      | some bytes =>
        match parseManifestBytes bytes with
        | none => .error "manifest parse error"
        | some m => (listGo es).map fun ms => m :: ms
    else listGo es

/-- Function `list_plugins` (main.rs lines 107-117), returning the manifests whose
lines it prints, or the first error it propagates. -/
def list_plugins (r : Registry) : Except String (List Manifest) :=
  if r.dirReadable then listGo r.entries else .error "read_dir error"

/-- Loop body of `load_manifests` (main.rs lines 121-134): `rd.flatten()`
drops failed directory entries, `if let Ok` drops unreadable files and
unparsable sidecars. -/
def loadGo : List DirEntry → List Manifest
  | [] => []
  | e :: es =>
    if ¬ e.entryOk then loadGo es
    else if hasJsonExt e.name then
      match readFile e with
      | none => loadGo es
      | some bytes =>
        match parseManifestBytes bytes with
        | none => loadGo es
        | some m => m :: loadGo es
    else loadGo es

/-- Function `load_manifests` (main.rs lines 121-134): total over every registry
state; an unreadable directory yields the empty manifest list. -/
def load_manifests (r : Registry) : List Manifest :=
  if r.dirReadable then loadGo r.entries else []

/-- Specification-level view of one directory entry: the manifest it
contributes to enumeration, if any. -/
def sidecarManifest (e : DirEntry) : Option Manifest :=
  if e.entryOk ∧ hasJsonExt e.name then (readFile e).bind parseManifestBytes else none

/-- The fixed built-in command names occupying the root namespace. -/
def builtinNames : List String :=
  ["add", "remove", "list", "create", "export", "import", "ensure-python"]

/-- One plugin node of the dynamic command tree: `subs` are the declared
subcommand nodes (each carrying the trailing-args collector), `topTrailing`
records whether the plugin node itself carries the trailing-args collector
(main.rs lines 410-424: exactly when no subcommands are declared). -/
structure PluginNode where
  name : String
  about : String
  subs : List (String × String)
  topTrailing : Bool
deriving DecidableEq, Repr

/-- The tree node `build_cli` constructs for one manifest. -/
def pluginNode (m : Manifest) : PluginNode :=
  ⟨m.name, m.description, m.commands.map fun sc => (sc.name, sc.description),
    m.commands.isEmpty⟩

/-- Function `build_cli` (main.rs lines 397-429): the static built-ins plus one node
per loaded manifest. -/
def build_cli (r : Registry) : List String × List PluginNode :=
  (builtinNames, (load_manifests r).map pluginNode)

/-- The parts of clap's `ArgMatches` that the plugin-dispatch branch of
`main` reads: the matched nested subcommand with its collected trailing
tokens, and the trailing tokens collected on the plugin node itself. -/
structure PluginMatch where
  sub : Option (String × List String)
  args : List String
deriving DecidableEq, Repr

/-- Clap's matching against one plugin node of the tree `build_cli` builds,
for well-formed invocations: a plugin without declared subcommands collects
every token (the trailing collector takes flag-like tokens verbatim); a
plugin with declared subcommands either matches no further token, or
descends into the named subcommand node which collects the rest. -/
def matchPluginTokens (m : Manifest) (toks : List String) : Option PluginMatch :=
  if m.commands.isEmpty then some ⟨none, toks⟩
  else
    match toks with
    | [] => some ⟨none, []⟩
    | t :: rest =>
      if (m.commands.map fun sc => sc.name).contains t then some ⟨some (t, rest), []⟩
      else none

/-- Whether `Cmd::new(plugin_dir().join(pname)).status()` can spawn: the
stored script must exist and be a regular file. -/
def scriptRunnable (r : Registry) (name : String) : Bool :=
  match fsFind r name with
  | some e => e.isFile
  | none => false

/-- What the plugin-dispatch branch of `main` (lines 518-533) does to the
whole process. -/
inductive DispatchResult where
  | exit : Int → DispatchResult
  | ioError : String → DispatchResult
  | panicked : String → DispatchResult
deriving DecidableEq, Repr

/-- The panic message of clap's `ArgMatches::get_raw` when asked for an
argument id the matched command does not define. -/
def clapPanicMsg : String := "Mismatch between definition and access of args"

/-- The plugin-dispatch branch of `main` (main.rs lines 518-533).  The argv
is `[subcommandName] ++ trailing` when matching descended into a subcommand
node, and the plugin node's own trailing tokens otherwise — but in that
otherwise-branch `pm.get_raw("args")` is only defined on the plugin node
when the plugin declared no subcommands (build_cli adds the `args` collector
to subcommand nodes, or to the plugin node itself only when `commands` is
empty), and clap's `get_raw` panics on an undefined argument id.  On a
successful spawn the parent exits with the child's code, defaulting to 1;
a failed spawn surfaces as the propagated I/O error (main returns `Err`,
exiting with code 1). -/
def dispatchPlugin (r : Registry) (m : Manifest) (pm : PluginMatch)
    (child : List String → Option Int) : DispatchResult :=
  match pm.sub with
  | some (sname, sargs) =>
    if scriptRunnable r m.name then .exit ((child (sname :: sargs)).getD 1)
    else .ioError "No such file or directory (os error 2)"
  | none =>
    if m.commands.isEmpty then
      if scriptRunnable r m.name then .exit ((child pm.args).getD 1)
      else .ioError "No such file or directory (os error 2)"
    else .panicked clapPanicMsg

/-- The exit code the parent process ends with for each dispatch outcome:
the child's code on a clean dispatch, 1 when `main` returns `Err`, 101 when
the process panics. -/
def dispatchExitCode : DispatchResult → Int
  | .exit c => c
  | .ioError _ => 1
  | .panicked _ => 101

/-- One entry extracted from the import archive into the temp directory. -/
structure ArchiveEntry where
  name : String
  isFile : Bool
  content : List Char
deriving DecidableEq, Repr

/-- The per-entry line `import_plugins` prints. -/
inductive ImportReport where
  | imported : String → ImportReport
  | skipped : String → String → ImportReport
deriving DecidableEq, Repr

/-- Loop of `import_plugins` (main.rs lines 246-257): sidecar-extension
entries and non-files are skipped silently, every other entry goes through
`validate_and_copy`, and a failed admission is reported per entry without
stopping the loop.  `introspect` is the behavior of `uv run <entry>
--manifest` as a function of the entry's bytes. -/
def importGo (introspect : List Char → Except String ProcOutput) :
    Registry → List ArchiveEntry → Registry × List ImportReport
  | r, [] => (r, [])
  | r, e :: es =>
    if hasJsonExt e.name then importGo introspect r es
    else if ¬ e.isFile then importGo introspect r es
    else
      let res := validate_and_copy r e.content e.name (introspect e.content)
      let rep := match res.2.2 with
        | .ok m => ImportReport.imported m.name
        | .error msg => ImportReport.skipped e.name msg
      let rest := importGo introspect res.2.1 es
      (rest.1, rep :: rest.2)

/-- Function `import_plugins` (main.rs lines 237-259) after a successful archive
extraction. -/
def import_plugins (r : Registry) (entries : List ArchiveEntry)
    (introspect : List Char → Except String ProcOutput) : Registry × List ImportReport :=
  importGo introspect r entries


/-! ### Round trip: string escaping -/

theorem hexVal_hexDigitChar (n : Nat) (h : n < 16) : hexVal (hexDigitChar n) = some n := by
  interval_cases n <;> decide

theorem strStep_escapeChar (c : Char) (tail : List Char) :
    strStep (escapeChar c ++ tail) = some (some c, tail) := by
  by_cases h1 : c = '"'
  · subst h1; simp [escapeChar, strStep]
  by_cases h2 : c = '\\'
  · subst h2; simp [escapeChar, strStep]
  by_cases h3 : c = '\x08'
  · subst h3; simp [escapeChar, strStep]
  by_cases h4 : c = '\x09'
  · subst h4; simp [escapeChar, strStep]
  by_cases h5 : c = '\x0a'
  · subst h5; simp [escapeChar, strStep]
  by_cases h6 : c = '\x0c'
  · subst h6; simp [escapeChar, strStep]
  by_cases h7 : c = '\x0d'
  · subst h7; simp [escapeChar, strStep]
  by_cases h8 : c.toNat < 32
  · have hdiv : c.toNat / 16 < 16 := by omega
    have hmod : c.toNat % 16 < 16 := by omega
    have hv0 : hexVal '0' = some 0 := by decide
    have hh4 : parseHex4 ('0' :: '0' :: hexDigitChar (c.toNat / 16) ::
        hexDigitChar (c.toNat % 16) :: tail) = some (c.toNat, tail) := by
      simp only [parseHex4, hv0, hexVal_hexDigitChar _ hdiv, hexVal_hexDigitChar _ hmod]
      have hval : ((0 * 16 + 0) * 16 + c.toNat / 16) * 16 + c.toNat % 16 = c.toNat := by omega
      rw [hval]
    have hu : parseUnicodeEsc ('0' :: '0' :: hexDigitChar (c.toNat / 16) ::
        hexDigitChar (c.toNat % 16) :: tail) = some (c, tail) := by
      unfold parseUnicodeEsc
      rw [hh4]
      simp only
      rw [if_neg (by omega : ¬ (0xD800 ≤ c.toNat ∧ c.toNat ≤ 0xDBFF)),
        if_neg (by omega : ¬ (0xDC00 ≤ c.toNat ∧ c.toNat ≤ 0xDFFF)), Char.ofNat_toNat]
    simp only [escapeChar, h1, h2, h3, h4, h5, h6, h7, h8, if_true, if_false,
      ite_true, ite_false, if_pos, List.cons_append, List.nil_append]
    simp [strStep, hu]
  · simp only [escapeChar, h1, h2, h3, h4, h5, h6, h7, h8, if_false, ite_false,
      List.cons_append, List.nil_append]
    simp only [strStep, h1, h2, if_false, ite_false, if_pos (by omega : 32 ≤ c.toNat)]

theorem strStep_quote (tail : List Char) : strStep ('"' :: tail) = some (none, tail) := by
  simp [strStep]

theorem parseStrBody_step (fuel : Nat) (cs : List Char) (c : Char) (rest : List Char)
    (h : strStep cs = some (some c, rest)) :
    parseStrBody (fuel + 1) cs = (parseStrBody fuel rest).map fun p => (c :: p.1, p.2) := by
  simp only [parseStrBody, h]

theorem parseStrBody_close (fuel : Nat) (cs rest : List Char)
    (h : strStep cs = some (none, rest)) :
    parseStrBody (fuel + 1) cs = some ([], rest) := by
  simp only [parseStrBody, h]

theorem escapeChar_length (c : Char) : 1 ≤ (escapeChar c).length := by
  unfold escapeChar
  repeat' split
  all_goals simp

theorem escBody_length (cs : List Char) : cs.length ≤ (escBody cs).length := by
  induction cs with
  | nil => simp [escBody]
  | cons c cs ih =>
    have h1 := escapeChar_length c
    have hb : escBody (c :: cs) = escapeChar c ++ escBody cs := rfl
    rw [hb]
    simp only [List.length_append, List.length_cons]
    omega

theorem parseStrBody_escBody (cs : List Char) (fuel : Nat) (tail : List Char)
    (h : cs.length + 1 ≤ fuel) :
    parseStrBody fuel (escBody cs ++ '"' :: tail) = some (cs, tail) := by
  induction cs generalizing fuel with
  | nil =>
    cases fuel with
    | zero => omega
    | succ f =>
      have hx : escBody [] ++ '"' :: tail = '"' :: tail := rfl
      rw [hx, parseStrBody_close f _ tail (strStep_quote tail)]
  | cons c cs ih =>
    cases fuel with
    | zero => omega
    | succ f =>
      have hb : escBody (c :: cs) ++ '"' :: tail = escapeChar c ++ (escBody cs ++ '"' :: tail) := by
        simp [escBody, List.append_assoc]
      rw [hb, parseStrBody_step f _ c _ (strStep_escapeChar c _),
        ih f (by simp only [List.length_cons] at h; omega)]
      rfl

/-! ### Whitespace -/

theorem skipWs_replicate_space (n : Nat) (cs : List Char) :
    skipWs (List.replicate n ' ' ++ cs) = skipWs cs := by
  induction n with
  | zero => simp
  | succ k ih =>
    simp only [List.replicate_succ, List.cons_append, skipWs, List.dropWhile_cons] at *
    simpa using ih

theorem skipWs_nlInd (k : Nat) (cs : List Char) : skipWs (nlInd k ++ cs) = skipWs cs := by
  have : skipWs ('\n' :: (List.replicate (2 * k) ' ' ++ cs)) =
      skipWs (List.replicate (2 * k) ' ' ++ cs) := by
    simp [skipWs, List.dropWhile_cons, isWs]
  simp only [nlInd, List.cons_append, this, skipWs_replicate_space]

theorem skipWs_not_ws (c : Char) (cs : List Char) (h : isWs c = false) :
    skipWs (c :: cs) = c :: cs := by
  simp [skipWs, List.dropWhile_cons, h]

theorem skipWs_space (cs : List Char) : skipWs (' ' :: cs) = skipWs cs := by
  simp [skipWs, List.dropWhile_cons, isWs]

/-! ### Parsing rendered values -/

theorem parseVal_skip (fuel : Nat) (a b : List Char) (h : skipWs a = skipWs b) :
    parseVal fuel a = parseVal fuel b := by
  cases fuel with
  | zero => rfl
  | succ f => simp only [parseVal]; rw [h]

theorem parseVal_renderString (s : String) (fuel : Nat) (tail : List Char) (h : 1 ≤ fuel) :
    parseVal fuel (renderString s ++ tail) = some (.str s, tail) := by
  cases fuel with
  | zero => omega
  | succ f =>
    have hx : renderString s ++ tail = '"' :: (escBody s.data ++ '"' :: tail) := by
      simp [renderString]
    rw [hx]
    simp only [parseVal]
    rw [skipWs_not_ws _ _ (by decide)]
    simp only [reduceIte]
    rw [parseStrBody_escBody s.data _ tail (by
      have := escBody_length s.data
      simp only [List.length_append, List.length_cons]
      omega)]
    rfl

theorem parseFieldsTail_close (g lev : Nat) (tail : List Char) (hg : 1 ≤ g) :
    parseFieldsTail g (nlInd lev ++ ('\x7d' :: tail)) = some ([], tail) := by
  cases g with
  | zero => omega
  | succ f =>
    simp only [parseFieldsTail]
    rw [skipWs_nlInd, skipWs_not_ws _ _ (by decide)]
    simp only [reduceIte]

theorem parseFields_field (g lev : Nat) (k : String) (vcs rcs tail : List Char)
    (j : Json) (fs : List (String × Json)) (nv nr : Nat)
    (hv : ∀ f t, nv ≤ f → parseVal f (vcs ++ t) = some (j, t))
    (hr : ∀ f, nr ≤ f → parseFieldsTail f rcs = some (fs, tail))
    (hg : nv + nr + 1 ≤ g) :
    parseFields g (nlInd lev ++ (renderString k ++ (':' :: ' ' :: (vcs ++ rcs)))) =
      some ((k, j) :: fs, tail) := by
  cases g with
  | zero => omega
  | succ f =>
    have hx : renderString k ++ (':' :: ' ' :: (vcs ++ rcs)) =
        '"' :: (escBody k.data ++ '"' :: (':' :: ' ' :: (vcs ++ rcs))) := by
      simp [renderString]
    simp only [parseFields]
    rw [skipWs_nlInd, hx, skipWs_not_ws _ _ (by decide)]
    simp only [reduceIte]
    rw [parseStrBody_escBody k.data _ _ (by
      have := escBody_length k.data
      simp only [List.length_append, List.length_cons]
      omega)]
    simp only
    rw [skipWs_not_ws _ _ (by decide)]
    simp only [reduceIte]
    rw [parseVal_skip f _ _ (skipWs_space (vcs ++ rcs)), hv f rcs (by omega)]
    simp only [reduceIte]
    rw [hr f (by omega)]
    rw [if_neg (by decide)]

theorem parseFieldsTail_field (g lev : Nat) (k : String) (vcs rcs tail : List Char)
    (j : Json) (fs : List (String × Json)) (nv nr : Nat)
    (hv : ∀ f t, nv ≤ f → parseVal f (vcs ++ t) = some (j, t))
    (hr : ∀ f, nr ≤ f → parseFieldsTail f rcs = some (fs, tail))
    (hg : nv + nr + 1 ≤ g) :
    parseFieldsTail g (',' :: (nlInd lev ++ (renderString k ++ (':' :: ' ' :: (vcs ++ rcs))))) =
      some ((k, j) :: fs, tail) := by
  cases g with
  | zero => omega
  | succ f =>
    have hx : renderString k ++ (':' :: ' ' :: (vcs ++ rcs)) =
        '"' :: (escBody k.data ++ '"' :: (':' :: ' ' :: (vcs ++ rcs))) := by
      simp [renderString]
    simp only [parseFieldsTail]
    rw [skipWs_not_ws _ _ (by decide)]
    simp only [reduceIte]
    rw [skipWs_nlInd, hx, skipWs_not_ws _ _ (by decide)]
    simp only [reduceIte]
    rw [parseStrBody_escBody k.data _ _ (by
      have := escBody_length k.data
      simp only [List.length_append, List.length_cons]
      omega)]
    simp only
    rw [skipWs_not_ws _ _ (by decide)]
    simp only [reduceIte]
    rw [parseVal_skip f _ _ (skipWs_space (vcs ++ rcs)), hv f rcs (by omega)]
    simp only [reduceIte]
    rw [hr f (by omega)]
    rw [if_neg (by decide)]

theorem parseVal_objOpen (g : Nat) (X : List Char) (fs : List (String × Json))
    (tail : List Char) (nf : Nat)
    (hf : ∀ f, nf ≤ f → parseFields f X = some (fs, tail)) (hg : nf + 1 ≤ g) :
    parseVal g ('\x7b' :: X) = some (.obj fs, tail) := by
  cases g with
  | zero => omega
  | succ f =>
    simp only [parseVal]
    rw [skipWs_not_ws _ _ (by decide)]
    simp only [reduceIte]
    rw [hf f (by omega)]
    rfl

theorem renderSubCmd_eq (s : SubCmdMeta) (z : List Char) : renderSubCmd s ++ z =
    '\x7b' :: (nlInd 3 ++ (renderString "name" ++ (':' :: ' ' :: (renderString s.name ++
      (',' :: (nlInd 3 ++ (renderString "description" ++ (':' :: ' ' ::
        (renderString s.description ++ (nlInd 2 ++ ('\x7d' :: z))))))))))) := by
  simp [renderSubCmd, List.append_assoc]

theorem parseVal_renderSubCmd (s : SubCmdMeta) (fuel : Nat) (tail : List Char) (h : 7 ≤ fuel) :
    parseVal fuel (renderSubCmd s ++ tail) = some (subCmdJson s, tail) := by
  rw [renderSubCmd_eq]
  exact parseVal_objOpen _ _ _ _ 5
    (fun f hf => parseFields_field f 3 "name" (renderString s.name) _ tail _ _ 1 3
      (fun f2 t h2 => parseVal_renderString s.name f2 t h2)
      (fun f2 h2 => parseFieldsTail_field f2 3 "description" (renderString s.description) _ tail _ _ 1 1
        (fun f3 t h3 => parseVal_renderString s.description f3 t h3)
        (fun f3 h3 => parseFieldsTail_close f3 2 tail h3)
        (by omega))
      (by omega))
    (by omega)

theorem parseItemsTail_close (g lev : Nat) (tail : List Char) (hg : 1 ≤ g) :
    parseItemsTail g (nlInd lev ++ (']' :: tail)) = some ([], tail) := by
  cases g with
  | zero => omega
  | succ f =>
    simp only [parseItemsTail]
    rw [skipWs_nlInd, skipWs_not_ws _ _ (by decide)]
    simp only [reduceIte]

theorem parseItemsTail_item (g lev : Nat) (vcs rcs tail : List Char) (j : Json)
    (vs : List Json) (nv nr : Nat)
    (hv : ∀ f t, nv ≤ f → parseVal f (vcs ++ t) = some (j, t))
    (hr : ∀ f, nr ≤ f → parseItemsTail f rcs = some (vs, tail))
    (hg : nv + nr + 1 ≤ g) :
    parseItemsTail g (',' :: (nlInd lev ++ (vcs ++ rcs))) = some (j :: vs, tail) := by
  cases g with
  | zero => omega
  | succ f =>
    simp only [parseItemsTail]
    rw [skipWs_not_ws _ _ (by decide)]
    simp only
    rw [if_neg (by decide : ¬ (',' : Char) = ']')]
    simp only [if_true]
    rw [parseVal_skip f _ _ (skipWs_nlInd lev (vcs ++ rcs)), hv f rcs (by omega)]
    simp only
    rw [hr f (by omega)]

theorem parseItemsTail_renderCmdTail (cs : List SubCmdMeta) (fuel : Nat) (tail : List Char)
    (h : 8 * cs.length + 1 ≤ fuel) :
    parseItemsTail fuel (renderCmdTail cs ++ (nlInd 1 ++ (']' :: tail))) =
      some (cs.map subCmdJson, tail) := by
  induction cs generalizing fuel with
  | nil =>
    have hx : renderCmdTail [] ++ (nlInd 1 ++ (']' :: tail)) = nlInd 1 ++ (']' :: tail) := by
      simp [renderCmdTail]
    rw [hx]
    exact parseItemsTail_close fuel 1 tail (by omega)
  | cons c cs ih =>
    have hx : renderCmdTail (c :: cs) ++ (nlInd 1 ++ (']' :: tail)) =
        ',' :: (nlInd 2 ++ (renderSubCmd c ++ (renderCmdTail cs ++ (nlInd 1 ++ (']' :: tail))))) := by
      simp [renderCmdTail, List.append_assoc]
    rw [hx]
    exact parseItemsTail_item fuel 2 (renderSubCmd c) _ tail (subCmdJson c)
      (cs.map subCmdJson) 7 (8 * cs.length + 1)
      (fun f t hf => parseVal_renderSubCmd c f t hf)
      (fun f hf => ih f hf)
      (by simp at h ⊢; omega)

theorem parseVal_renderCommands (cs : List SubCmdMeta) (fuel : Nat) (tail : List Char)
    (h : 8 * cs.length + 10 ≤ fuel) :
    parseVal fuel (renderCommands cs ++ tail) = some (.arr (cs.map subCmdJson), tail) := by
  cases fuel with
  | zero => omega
  | succ f =>
    cases cs with
    | nil =>
      have hx : renderCommands [] ++ tail = '[' :: (']' :: tail) := by simp [renderCommands]
      rw [hx]
      simp only [parseVal]
      rw [skipWs_not_ws _ _ (by decide)]
      simp only
      rw [if_neg (by decide : ¬ ('[' : Char) = '"'),
        if_neg (by decide : ¬ ('[' : Char) = '\x7b')]
      simp only [if_true]
      cases f with
      | zero => omega
      | succ f1 =>
        simp only [parseItems]
        rw [skipWs_not_ws _ _ (by decide)]
        simp only [reduceIte]
        rfl
    | cons c cs' =>
      have hx : renderCommands (c :: cs') ++ tail =
          '[' :: (nlInd 2 ++ (renderSubCmd c ++ (renderCmdTail cs' ++ (nlInd 1 ++ (']' :: tail))))) := by
        simp [renderCommands, List.append_assoc]
      rw [hx]
      simp only [parseVal]
      rw [skipWs_not_ws _ _ (by decide)]
      simp only
      rw [if_neg (by decide : ¬ ('[' : Char) = '"'),
        if_neg (by decide : ¬ ('[' : Char) = '\x7b')]
      simp only [if_true]
      cases f with
      | zero => omega
      | succ f1 =>
        simp only [parseItems]
        rw [skipWs_nlInd, renderSubCmd_eq, skipWs_not_ws _ _ (by decide)]
        simp only
        rw [if_neg (by decide : ¬ ('\x7b' : Char) = ']')]
        rw [← renderSubCmd_eq]
        rw [parseVal_renderSubCmd c f1 _ (by simp at h; omega)]
        simp only
        rw [parseItemsTail_renderCmdTail cs' f1 tail (by simp at h; omega)]
        rfl

theorem renderManifest_eq (m : Manifest) (z : List Char) : renderManifest m ++ z =
    '\x7b' :: (nlInd 1 ++ (renderString "name" ++ (':' :: ' ' :: (renderString m.name ++
      (',' :: (nlInd 1 ++ (renderString "description" ++ (':' :: ' ' :: (renderString m.description ++
        (',' :: (nlInd 1 ++ (renderString "version" ++ (':' :: ' ' :: (renderString m.version ++
          (',' :: (nlInd 1 ++ (renderString "commands" ++ (':' :: ' ' :: (renderCommands m.commands ++
            (nlInd 0 ++ ('\x7d' :: z))))))))))))))))))))) := by
  simp [renderManifest, List.append_assoc]

theorem parseVal_renderManifest (m : Manifest) (fuel : Nat) (tail : List Char)
    (h : 8 * m.commands.length + 22 ≤ fuel) :
    parseVal fuel (renderManifest m ++ tail) = some (manifestJson m, tail) := by
  rw [renderManifest_eq]
  exact parseVal_objOpen _ _ _ _ (8 * m.commands.length + 21)
    (fun f hf => parseFields_field f 1 "name" (renderString m.name) _ tail _ _ 1
      (8 * m.commands.length + 19)
      (fun f2 t h2 => parseVal_renderString m.name f2 t h2)
      (fun f2 h2 => parseFieldsTail_field f2 1 "description" (renderString m.description) _ tail _ _ 1
        (8 * m.commands.length + 16)
        (fun f3 t h3 => parseVal_renderString m.description f3 t h3)
        (fun f3 h3 => parseFieldsTail_field f3 1 "version" (renderString m.version) _ tail _ _ 1
          (8 * m.commands.length + 13)
          (fun f4 t h4 => parseVal_renderString m.version f4 t h4)
          (fun f4 h4 => parseFieldsTail_field f4 1 "commands" (renderCommands m.commands) _ tail _ _
            (8 * m.commands.length + 10) 1
            (fun f5 t h5 => parseVal_renderCommands m.commands f5 t h5)
            (fun f5 h5 => parseFieldsTail_close f5 0 tail h5)
            (by omega))
          (by omega))
        (by omega))
      (by omega))
    (by omega)

/-! ### Length bounds: the top-level fuel suffices -/

theorem renderString_length (s : String) : 2 ≤ (renderString s).length := by
  simp [renderString]

theorem renderSubCmd_length (s : SubCmdMeta) : 8 ≤ (renderSubCmd s).length := by
  have h1 := renderString_length s.name
  simp [renderSubCmd, nlInd]

theorem renderCmdTail_length (cs : List SubCmdMeta) :
    8 * cs.length ≤ (renderCmdTail cs).length := by
  induction cs with
  | nil => simp [renderCmdTail]
  | cons c cs ih =>
    have h1 := renderSubCmd_length c
    simp [renderCmdTail, nlInd] at *
    omega

theorem renderCommands_length (cs : List SubCmdMeta) :
    8 * cs.length + 2 ≤ (renderCommands cs).length := by
  cases cs with
  | nil => simp [renderCommands]
  | cons c cs =>
    have h1 := renderSubCmd_length c
    have h2 := renderCmdTail_length cs
    simp [renderCommands, nlInd] at *
    omega

theorem renderManifest_length (m : Manifest) :
    8 * m.commands.length + 22 ≤ (renderManifest m).length := by
  have h1 := renderString_length m.name
  have h2 := renderString_length m.description
  have h3 := renderString_length m.version
  have h4 := renderCommands_length m.commands
  simp [renderManifest, nlInd]
  omega

/-! ### Decoding the rendered document -/

theorem decodeSubCmd_subCmdJson (s : SubCmdMeta) : decodeSubCmd (subCmdJson s) = some s := rfl

theorem decodeSubItems_map (cs : List SubCmdMeta) :
    decodeSubItems (cs.map subCmdJson) = some cs := by
  induction cs with
  | nil => rfl
  | cons c cs ih => simp [decodeSubItems, decodeSubCmd_subCmdJson, ih]

theorem decodeManifest_manifestJson (m : Manifest) : decodeManifest (manifestJson m) = some m := by
  simp only [decodeManifest, manifestJson, decodeManGo, getStr, decodeSubList,
    decodeSubItems_map, Option.bind_some]
  simp [decodeManGo]

/-! ### The manifest byte round trip -/

theorem parseManifestBytes_renderManifest (m : Manifest) :
    parseManifestBytes (renderManifest m) = some m := by
  unfold parseManifestBytes parseJsonBytes
  have hlen : 8 * m.commands.length + 22 ≤ (renderManifest m).length + 1 := by
    have := renderManifest_length m
    omega
  have hp := parseVal_renderManifest m ((renderManifest m).length + 1) [] hlen
  rw [List.append_nil] at hp
  rw [hp]
  simp [skipWs, decodeManifest_manifestJson]

/-! ### Registry store lemmas -/

theorem find?_overwrite (es : List DirEntry) (name : String) (content : List Char) (exec : Bool)
    (h : (es.any fun e => e.name == name) = true) :
    ((es.map fun e => if e.name == name then mkFile name content exec else e).find?
      fun e => e.name == name) = some (mkFile name content exec) := by
  induction es with
  | nil => simp at h
  | cons e es ih =>
    rw [List.map_cons]
    by_cases he : (e.name == name) = true
    · rw [if_pos he, List.find?_cons_of_pos _ (by simp [mkFile])]
    · rw [if_neg he, List.find?_cons_of_neg _ (by simp_all)]
      apply ih
      simpa [he] using h

theorem find?_fresh (es : List DirEntry) (name : String) (content : List Char) (exec : Bool)
    (h : (es.any fun e => e.name == name) = false) :
    ((es ++ [mkFile name content exec]).find? fun e => e.name == name) =
      some (mkFile name content exec) := by
  induction es with
  | nil => simp [List.find?_cons_of_pos, mkFile]
  | cons e es ih =>
    simp only [List.any_cons, Bool.or_eq_false_iff] at h
    rw [List.cons_append, List.find?_cons_of_neg _ (by simp_all)]
    exact ih h.2

theorem fsFind_fsWrite_self (r : Registry) (name : String) (content : List Char) (exec : Bool) :
    fsFind (fsWrite r name content exec) name = some (mkFile name content exec) := by
  unfold fsFind fsWrite
  by_cases h : (r.entries.any fun e => e.name == name) = true
  · rw [if_pos h]
    exact find?_overwrite r.entries name content exec h
  · rw [if_neg h]
    exact find?_fresh r.entries name content exec (by simpa using h)

theorem fsFind_fsWrite_ne (r : Registry) (name n' : String) (content : List Char) (exec : Bool)
    (h : ¬ n' = name) :
    fsFind (fsWrite r name content exec) n' = fsFind r n' := by
  have hnn : ((mkFile name content exec).name == n') = false :=
    beq_false_of_ne fun hh => h hh.symm
  unfold fsFind fsWrite
  by_cases ha : (r.entries.any fun e => e.name == name) = true
  · rw [if_pos ha]
    simp only
    induction r.entries with
    | nil => rfl
    | cons e es ih =>
      rw [List.map_cons]
      by_cases he : (e.name == name) = true
      · rw [if_pos he]
        have hee : (e.name == n') = false := by
          have hx : e.name = name := by simpa using he
          rw [hx]
          simpa [mkFile] using hnn
        rw [@List.find?_cons_of_neg _ (fun (e : DirEntry) => e.name == n') _ _ (by simp_all),
          @List.find?_cons_of_neg _ (fun (e : DirEntry) => e.name == n') _ _ (by simp_all)]
        exact ih
      · rw [if_neg he]
        by_cases hp : (e.name == n') = true
        · rw [@List.find?_cons_of_pos _ (fun (e : DirEntry) => e.name == n') _ _ hp,
            @List.find?_cons_of_pos _ (fun (e : DirEntry) => e.name == n') _ _ hp]
        · rw [@List.find?_cons_of_neg _ (fun (e : DirEntry) => e.name == n') _ _ (by simp_all),
            @List.find?_cons_of_neg _ (fun (e : DirEntry) => e.name == n') _ _ (by simp_all)]
          exact ih
  · rw [if_neg ha]
    simp only
    induction r.entries with
    | nil =>
      rw [List.nil_append,
        @List.find?_cons_of_neg _ (fun (e : DirEntry) => e.name == n') _ _ (by simp_all)]
    | cons e es ih =>
      rw [List.cons_append]
      by_cases hp : (e.name == n') = true
      · rw [@List.find?_cons_of_pos _ (fun (e : DirEntry) => e.name == n') _ _ hp,
          @List.find?_cons_of_pos _ (fun (e : DirEntry) => e.name == n') _ _ hp]
      · rw [@List.find?_cons_of_neg _ (fun (e : DirEntry) => e.name == n') _ _ (by simp_all),
          @List.find?_cons_of_neg _ (fun (e : DirEntry) => e.name == n') _ _ (by simp_all)]
        exact ih

theorem fsWrite_dirReadable (r : Registry) (name : String) (content : List Char) (exec : Bool) :
    (fsWrite r name content exec).dirReadable = r.dirReadable := by
  unfold fsWrite
  split <;> rfl

theorem mem_fsWrite_self (r : Registry) (name : String) (content : List Char) (exec : Bool) :
    mkFile name content exec ∈ (fsWrite r name content exec).entries := by
  unfold fsWrite
  by_cases h : (r.entries.any fun e => e.name == name) = true
  · rw [if_pos h]
    simp only [List.any_eq_true] at h
    obtain ⟨e, he, hpe⟩ := h
    simp only [List.mem_map]
    exact ⟨e, he, by rw [if_pos hpe]⟩
  · rw [if_neg h]
    simp

/-! ### Sidecar names and enumeration -/

theorem extension_append_json (s : String) (h : ¬ s = "") :
    extension (s ++ ".json") = some "json" := by
  have hd : (s ++ ".json").data.reverse = 'n' :: 'o' :: 's' :: 'j' :: '.' :: s.data.reverse := by
    show (s.data ++ ".json".data).reverse = _
    rw [List.reverse_append]
    rfl
  have ht : List.takeWhile (fun c => c != '.')
      ('n' :: 'o' :: 's' :: 'j' :: '.' :: s.data.reverse) = ['n', 'o', 's', 'j'] := rfl
  have hw : List.dropWhile (fun c => c != '.')
      ('n' :: 'o' :: 's' :: 'j' :: '.' :: s.data.reverse) = '.' :: s.data.reverse := rfl
  have hne : s.data.reverse.isEmpty = false := by
    cases hs : s.data with
    | nil => exact absurd (by cases s; simp_all) h
    | cons a l => simp [hs]
  unfold extension
  rw [hd, List.span_eq_take_drop, ht, hw]
  simp only [hne, Bool.false_eq_true, if_false]
  rfl

theorem hasJsonExt_append_json (s : String) (h : ¬ s = "") :
    hasJsonExt (s ++ ".json") = true := by
  simp [hasJsonExt, extension_append_json s h]

theorem append_json_ne (s : String) : ¬ s ++ ".json" = s := by
  intro hh
  have hlen : (s ++ ".json").length = s.length := by rw [hh]
  rw [String.length_append] at hlen
  have hz : (".json").length = 0 := by omega
  exact absurd hz (by decide)

theorem loadGo_eq_filterMap (es : List DirEntry) :
    loadGo es = es.filterMap sidecarManifest := by
  induction es with
  | nil => rfl
  | cons e es ih =>
    by_cases h1 : e.entryOk = true
    · by_cases h2 : hasJsonExt e.name = true
      · cases hr : readFile e with
        | none => simp [loadGo, List.filterMap_cons, sidecarManifest, h1, h2, hr, ih]
        | some bytes =>
          cases hp : parseManifestBytes bytes with
          | none => simp [loadGo, List.filterMap_cons, sidecarManifest, h1, h2, hr, hp, ih]
          | some m => simp [loadGo, List.filterMap_cons, sidecarManifest, h1, h2, hr, hp, ih]
      · simp [loadGo, List.filterMap_cons, sidecarManifest, h1, h2, ih]
    · simp [loadGo, List.filterMap_cons, sidecarManifest, h1, ih]

theorem load_manifests_eq (r : Registry) :
    load_manifests r = if r.dirReadable then r.entries.filterMap sidecarManifest else [] := by
  unfold load_manifests
  split <;> simp [loadGo_eq_filterMap]

theorem exceptMap_isOk {α β γ : Type} (x : Except α β) (f : β → γ) :
    (x.map f).isOk = x.isOk := by
  cases x <;> rfl

theorem isOk_error {α β : Type} (a : α) : (Except.error a : Except α β).isOk = false := rfl

theorem listGo_aborts (es₁ : List DirEntry) (e : DirEntry) (es₂ : List DirEntry)
    (hbad : ¬ e.entryOk = true ∨ (hasJsonExt e.name = true ∧
      (readFile e).bind parseManifestBytes = none)) :
    (listGo (es₁ ++ e :: es₂)).isOk = false := by
  induction es₁ with
  | nil =>
    rcases hbad with h1 | ⟨h2, h3⟩
    · simp [listGo, h1, isOk_error]
    · by_cases h1 : e.entryOk = true
      · cases hr : readFile e with
        | none => simp [listGo, h1, h2, hr, isOk_error]
        | some bytes =>
          have h3' : parseManifestBytes bytes = none := by rw [hr] at h3; exact h3
          simp [listGo, h1, h2, hr, h3', isOk_error]
      · simp [listGo, h1, isOk_error]
  | cons e' es₁ ih =>
    by_cases h1 : e'.entryOk = true
    · by_cases h2 : hasJsonExt e'.name = true
      · cases hr : readFile e' with
        | none => simp [listGo, h1, h2, hr, isOk_error]
        | some bytes =>
          cases hp : parseManifestBytes bytes with
          | none => simp [listGo, h1, h2, hr, hp, isOk_error]
          | some m => simp [listGo, h1, h2, hr, hp, exceptMap_isOk, ih]
      · simp [listGo, h1, h2, ih]
    · simp [listGo, h1, isOk_error]

/-! ### Removal lemmas -/

theorem find?_filter_not (es : List DirEntry) (n : String) :
    ((es.filter fun e => !(e.name == n)).find? fun e => e.name == n) = none := by
  induction es with
  | nil => rfl
  | cons e es ih =>
    by_cases he : (e.name == n) = true
    · simp [List.filter_cons, he, ih]
    · simp only [Bool.not_eq_true] at he
      simp [List.filter_cons, he, List.find?_cons, ih]

theorem fsFind_fsRemove_self (r : Registry) (n : String) :
    fsFind (fsRemove r n) n = none := by
  unfold fsFind fsRemove
  exact find?_filter_not r.entries n

theorem fsFind_fsRemove_ne (r : Registry) (n n' : String) (h : ¬ n' = n) :
    fsFind (fsRemove r n) n' = fsFind r n' := by
  unfold fsFind fsRemove
  simp only
  induction r.entries with
  | nil => rfl
  | cons e es ih =>
    by_cases he : (e.name == n) = true
    · have hee : (e.name == n') = false := by
        have hx : e.name = n := by simpa using he
        rw [hx]
        exact beq_false_of_ne fun hh => h hh.symm
      simp [List.filter_cons, he, List.find?_cons, hee, ih]
    · simp only [Bool.not_eq_true] at he
      by_cases hp : (e.name == n') = true
      · simp [List.filter_cons, he, List.find?_cons, hp]
      · simp only [Bool.not_eq_true] at hp
        simp [List.filter_cons, he, List.find?_cons, hp, ih]

theorem fsRemove_absent (r : Registry) (n : String) (h : fsFind r n = none) :
    fsRemove r n = r := by
  unfold fsFind at h
  unfold fsRemove
  rw [List.find?_eq_none] at h
  have hself : r.entries.filter (fun e => !(e.name == n)) = r.entries := by
    rw [List.filter_eq_self]
    intro e he
    simpa using h e he
  rw [hself]

theorem isOk_ok {α β : Type} (b : β) : (Except.ok b : Except α β).isOk = true := rfl

/-! ### Claim theorems -/

/-- Claim C7: for every valid `Manifest` (any `name`, `description` and
`version` strings, any ordered sequence of subcommand name/description
pairs, the empty sequence included), parsing the bytes produced by
serializing the manifest (`serde_json::to_vec_pretty`, main.rs line 93)
yields a `Manifest` equal to the original. -/
theorem c7_manifest_roundtrip (m : Manifest) :
    parseManifestBytes (renderManifest m) = some m :=
  parseManifestBytes_renderManifest m

/-- Claim C9: `remove_plugin` (main.rs lines 98-105) removes the script file
and the sidecar file when each is present, succeeds without error in every
case — in particular when the name was never admitted, where it is a no-op
that leaves the registry unchanged — and touches no other file. -/
theorem c9_remove_noop (r : Registry) (name : String) :
    ∃ r', remove_plugin r name = .ok r' ∧
      fsFind r' name = none ∧
      fsFind r' (name ++ ".json") = none ∧
      (∀ n', ¬ n' = name → ¬ n' = name ++ ".json" → fsFind r' n' = fsFind r n') ∧
      (fsFind r name = none → fsFind r (name ++ ".json") = none → r' = r) := by
  unfold remove_plugin
  simp only []
  by_cases h1 : (fsFind r name).isSome
  · rw [if_pos h1]
    by_cases h2 : (fsFind (fsRemove r name) (name ++ ".json")).isSome
    · rw [if_pos h2]
      refine ⟨_, rfl, ?_, ?_, ?_, ?_⟩
      · rw [fsFind_fsRemove_ne _ _ _ (fun hh => append_json_ne name hh.symm)]
        exact fsFind_fsRemove_self r name
      · exact fsFind_fsRemove_self _ _
      · intro n' hn1 hn2
        rw [fsFind_fsRemove_ne _ _ _ hn2, fsFind_fsRemove_ne _ _ _ hn1]
      · intro ha _
        rw [ha] at h1
        simp at h1
    · rw [if_neg h2]
      refine ⟨_, rfl, fsFind_fsRemove_self r name, ?_, ?_, ?_⟩
      · simpa using h2
      · intro n' hn1 _
        rw [fsFind_fsRemove_ne _ _ _ hn1]
      · intro ha _
        rw [ha] at h1
        simp at h1
  · rw [if_neg h1]
    have ha : fsFind r name = none := by
      cases hx : fsFind r name
      · rfl
      · rw [hx] at h1; simp at h1
    by_cases h2 : (fsFind r (name ++ ".json")).isSome
    · rw [if_pos h2]
      refine ⟨_, rfl, ?_, fsFind_fsRemove_self _ _, ?_, ?_⟩
      · rw [fsFind_fsRemove_ne r (name ++ ".json") name (fun hh => append_json_ne name hh.symm)]
        exact ha
      · intro n' _ hn2
        rw [fsFind_fsRemove_ne _ _ _ hn2]
      · intro _ hb
        rw [hb] at h2
        simp at h2
    · rw [if_neg h2]
      have hb : fsFind r (name ++ ".json") = none := by
        cases hx : fsFind r (name ++ ".json")
        · rfl
        · rw [hx] at h2; simp at h2
      exact ⟨r, rfl, ha, hb, fun _ _ _ => rfl, fun _ _ => rfl⟩

theorem c9_remove_noop_witness :
    ∃ r', remove_plugin ⟨true, []⟩ "ghost" = .ok r' ∧
      fsFind r' "ghost" = none ∧
      fsFind r' ("ghost" ++ ".json") = none ∧
      (∀ n', ¬ n' = "ghost" → ¬ n' = "ghost" ++ ".json" → fsFind r' n' = fsFind ⟨true, []⟩ n') ∧
      (fsFind ⟨true, []⟩ "ghost" = none → fsFind ⟨true, []⟩ ("ghost" ++ ".json") = none →
        r' = ⟨true, []⟩) :=
  c9_remove_noop ⟨true, []⟩ "ghost"

/-- Claim C5: an admitted script and its sidecar are stored under the parsed
manifest's `name`, not under the candidate file's original filename (the
result is invariant in that filename, which `validate_and_copy` never
consults), and because this holds for every prior registry state `r`, an
admission whose manifest name matches a previously admitted name silently
overwrites the prior script and sidecar. -/
theorem c5_keyed_by_manifest_name (r : Registry) (scriptBytes : List Char)
    (n1 n2 : String) (out : ProcOutput) (m : Manifest)
    (hp : parseManifestBytes out.stdout = some m) :
    (validate_and_copy r scriptBytes n1 (.ok out)).2.2 = .ok m ∧
    fsFind (validate_and_copy r scriptBytes n1 (.ok out)).2.1 m.name =
      some (mkFile m.name scriptBytes true) ∧
    fsFind (validate_and_copy r scriptBytes n1 (.ok out)).2.1 (m.name ++ ".json") =
      some (mkFile (m.name ++ ".json") (renderManifest m) false) ∧
    validate_and_copy r scriptBytes n1 (.ok out) = validate_and_copy r scriptBytes n2 (.ok out) := by
  unfold validate_and_copy
  simp only []
  rw [hp]
  refine ⟨rfl, ?_, ?_, trivial⟩
  · show fsFind (put r m scriptBytes) m.name = _
    unfold put
    rw [fsFind_fsWrite_ne _ _ _ _ _ (fun hh => append_json_ne m.name hh.symm)]
    exact fsFind_fsWrite_self _ _ _ _
  · show fsFind (put r m scriptBytes) (m.name ++ ".json") = _
    unfold put
    exact fsFind_fsWrite_self _ _ _ _

def mW : Manifest := ⟨"w", "d", "1", []⟩

def outW : ProcOutput :=
  ⟨true, "\x7b\"name\":\"w\",\"description\":\"d\",\"version\":\"1\"\x7d".data, []⟩

theorem c5_keyed_witness :
    parseManifestBytes outW.stdout = some mW ∧
    ((validate_and_copy ⟨true, [mkFile "w" "old".data true]⟩ "new".data "cand.py" (.ok outW)).2.2 =
        .ok mW ∧
      fsFind (validate_and_copy ⟨true, [mkFile "w" "old".data true]⟩ "new".data "cand.py"
          (.ok outW)).2.1 mW.name = some (mkFile mW.name "new".data true) ∧
      fsFind (validate_and_copy ⟨true, [mkFile "w" "old".data true]⟩ "new".data "cand.py"
          (.ok outW)).2.1 (mW.name ++ ".json") =
        some (mkFile (mW.name ++ ".json") (renderManifest mW) false) ∧
      validate_and_copy ⟨true, [mkFile "w" "old".data true]⟩ "new".data "cand.py" (.ok outW) =
        validate_and_copy ⟨true, [mkFile "w" "old".data true]⟩ "new".data "other.py" (.ok outW)) :=
  ⟨rfl, c5_keyed_by_manifest_name ⟨true, [mkFile "w" "old".data true]⟩ "new".data
    "cand.py" "other.py" outW mW rfl⟩

/-- Claim C6: when the introspection standard output is not well-formed
Manifest JSON, admission fails with an error and the registry is unchanged
(no write happens, for any name); when it parses to a valid manifest (the
spec's validity includes a non-empty `name`, and `ensure_plugin_dir` has
made the registry directory readable), admission succeeds and the admitted
manifest is subsequently visible via the enumeration that drives the
command tree. -/
theorem c6_admission_gate (r : Registry) (b : List Char) (n : String) (out : ProcOutput) :
    (parseManifestBytes out.stdout = none →
      (validate_and_copy r b n (.ok out)).2.1 = r ∧
      (validate_and_copy r b n (.ok out)).2.2 = .error "invalid manifest JSON") ∧
    (∀ m, parseManifestBytes out.stdout = some m → ¬ m.name = "" → r.dirReadable = true →
      (validate_and_copy r b n (.ok out)).2.2 = .ok m ∧
      m ∈ load_manifests (validate_and_copy r b n (.ok out)).2.1) := by
  constructor
  · intro hnone
    unfold validate_and_copy
    simp only []
    rw [hnone]
    exact ⟨rfl, rfl⟩
  · intro m hp hname hdir
    unfold validate_and_copy
    simp only []
    rw [hp]
    refine ⟨rfl, ?_⟩
    show m ∈ load_manifests (put r m b)
    rw [load_manifests_eq]
    have hdr : (put r m b).dirReadable = true := by
      unfold put
      rw [fsWrite_dirReadable, fsWrite_dirReadable, hdir]
    rw [hdr]
    simp only [if_true]
    rw [List.mem_filterMap]
    refine ⟨mkFile (m.name ++ ".json") (renderManifest m) false, ?_, ?_⟩
    · unfold put
      exact mem_fsWrite_self _ _ _ _
    · unfold sidecarManifest
      rw [if_pos ⟨rfl, hasJsonExt_append_json m.name hname⟩]
      simp [readFile, mkFile, parseManifestBytes_renderManifest]

theorem c6_admission_witness :
    (parseManifestBytes "oops".data = none →
      (validate_and_copy ⟨true, []⟩ "sb".data "x.py" (.ok ⟨true, "oops".data, []⟩)).2.1 =
        ⟨true, []⟩ ∧
      (validate_and_copy ⟨true, []⟩ "sb".data "x.py" (.ok ⟨true, "oops".data, []⟩)).2.2 =
        .error "invalid manifest JSON") ∧
    (∀ m, parseManifestBytes "oops".data = some m → ¬ m.name = "" →
      (⟨true, []⟩ : Registry).dirReadable = true →
      (validate_and_copy ⟨true, []⟩ "sb".data "x.py" (.ok ⟨true, "oops".data, []⟩)).2.2 = .ok m ∧
      m ∈ load_manifests (validate_and_copy ⟨true, []⟩ "sb".data "x.py"
        (.ok ⟨true, "oops".data, []⟩)).2.1) :=
  c6_admission_gate ⟨true, []⟩ "sb".data "x.py" ⟨true, "oops".data, []⟩

/-- Claim C3: when the introspection run exits with a non-zero status,
`validate_and_copy` (main.rs lines 75-81) prints a diagnostic embedding the
captured standard error but still parses standard output, and admission
succeeds exactly when that output parses as a Manifest — the exit status
alone never fails admission. -/
theorem c3_exit_status_advisory (r : Registry) (b : List Char) (n : String) (out : ProcOutput)
    (h : out.success = false) :
    (validate_and_copy r b n (.ok out)).1 = [warnDiag out.stderr] ∧
    out.stderr <:+ warnDiag out.stderr ∧
    (validate_and_copy r b n (.ok out)).2.2.isOk = (parseManifestBytes out.stdout).isSome := by
  unfold validate_and_copy
  simp only []
  rw [h]
  refine ⟨?_, ?_, ?_⟩
  · cases hp : parseManifestBytes out.stdout <;> simp [hp]
  · unfold warnDiag
    exact List.suffix_append _ _
  · cases hp : parseManifestBytes out.stdout <;> simp [hp, isOk_error, isOk_ok]

theorem c3_exit_status_witness :
    (⟨false, outW.stdout, "boom".data⟩ : ProcOutput).success = false ∧
    ((validate_and_copy ⟨true, []⟩ "sb".data "x.py"
        (.ok ⟨false, outW.stdout, "boom".data⟩)).1 = [warnDiag "boom".data] ∧
      "boom".data <:+ warnDiag "boom".data ∧
      (validate_and_copy ⟨true, []⟩ "sb".data "x.py"
        (.ok ⟨false, outW.stdout, "boom".data⟩)).2.2.isOk =
        (parseManifestBytes outW.stdout).isSome) :=
  ⟨rfl, c3_exit_status_advisory ⟨true, []⟩ "sb".data "x.py" ⟨false, outW.stdout, "boom".data⟩ rfl⟩

/-- Claim C2 (corrected): the enumeration driving command-tree building
(`load_manifests`) skips an unreadable or unparsable sidecar and still
returns every other parseable sidecar; but the enumeration driving `list`
output (`list_plugins`, whose loop propagates every error with `?`) aborts
on such a sidecar instead of skipping it. -/
theorem c2_enumeration_amended (es₁ es₂ : List DirEntry) (e : DirEntry)
    (hok : e.entryOk = true) (hjson : hasJsonExt e.name = true)
    (hbad : (readFile e).bind parseManifestBytes = none) :
    load_manifests ⟨true, es₁ ++ e :: es₂⟩ =
      load_manifests ⟨true, es₁⟩ ++ load_manifests ⟨true, es₂⟩ ∧
    (list_plugins ⟨true, es₁ ++ e :: es₂⟩).isOk = false := by
  constructor
  · have hnone : sidecarManifest e = none := by
      unfold sidecarManifest
      rw [if_pos ⟨hok, hjson⟩, hbad]
    rw [load_manifests_eq, load_manifests_eq, load_manifests_eq]
    simp [List.filterMap_append, List.filterMap_cons, hnone]
  · show (listGo (es₁ ++ e :: es₂)).isOk = false
    exact listGo_aborts es₁ e es₂ (Or.inr ⟨hjson, hbad⟩)

theorem c2_enumeration_witness :
    (mkFile "bad.json" "oops".data false).entryOk = true ∧
    hasJsonExt (mkFile "bad.json" "oops".data false).name = true ∧
    (readFile (mkFile "bad.json" "oops".data false)).bind parseManifestBytes = none ∧
    (load_manifests ⟨true, [mkFile "good.json" (renderManifest mW) false] ++
        mkFile "bad.json" "oops".data false :: []⟩ =
      load_manifests ⟨true, [mkFile "good.json" (renderManifest mW) false]⟩ ++
        load_manifests ⟨true, []⟩ ∧
      (list_plugins ⟨true, [mkFile "good.json" (renderManifest mW) false] ++
        mkFile "bad.json" "oops".data false :: []⟩).isOk = false) :=
  ⟨rfl, by decide, rfl,
    c2_enumeration_amended [mkFile "good.json" (renderManifest mW) false] []
      (mkFile "bad.json" "oops".data false) rfl (by decide) rfl⟩

/-- Claim C2, counterexample to the claim as stated: in a registry holding
one unparsable sidecar (`bad.json`) before one parseable sidecar
(`good.json`), the enumeration driving `list` output aborts with the parse
error — it does not skip the bad sidecar and it processes nothing after it,
while the claim asserts both enumerations skip it and still process every
other parseable sidecar. -/
theorem c2_list_aborts_cx :
    list_plugins ⟨true, [mkFile "bad.json" "oops".data false,
        mkFile "good.json" (renderManifest mW) false]⟩ =
      .error "manifest parse error" ∧
    load_manifests ⟨true, [mkFile "bad.json" "oops".data false,
        mkFile "good.json" (renderManifest mW) false]⟩ = [mW] := by
  constructor
  · rfl
  · rfl

/-- Claim C10: command-tree construction is total over every possible
registry state: for every registry (unreadable directory, failed directory
entries, unreadable files, unparsable sidecars, or any mix) the manifest
loader returns exactly the successfully parsed sidecar manifests — possibly
none — and never an error, so `build_cli` always produces the built-in
nodes plus one plugin node per parsed manifest. -/
theorem c10_tree_total (r : Registry) :
    build_cli r = (builtinNames,
      ((if r.dirReadable then r.entries.filterMap sidecarManifest else []).map pluginNode)) := by
  unfold build_cli
  rw [load_manifests_eq]

/-- Forwarding on the paths the dispatch branch handles without crashing:
a plugin with no declared subcommands forwards exactly the trailing tokens,
and a descent into a declared subcommand node forwards the subcommand name
followed by the trailing tokens, propagating the child's exit code (1 when
the child has none). -/
theorem dispatch_forwarding (r : Registry) (m : Manifest) (toks : List String)
    (pm : PluginMatch) (child : List String → Option Int)
    (hm : matchPluginTokens m toks = some pm)
    (hs : scriptRunnable r m.name = true) :
    (m.commands.isEmpty = true → pm = ⟨none, toks⟩ ∧
      dispatchPlugin r m pm child = .exit ((child toks).getD 1)) ∧
    (∀ s rest, pm.sub = some (s, rest) → toks = s :: rest ∧
      ((m.commands.map fun sc => sc.name).contains s) = true ∧
      dispatchPlugin r m pm child = .exit ((child (s :: rest)).getD 1)) := by
  unfold matchPluginTokens at hm
  by_cases hemp : m.commands.isEmpty = true
  · rw [if_pos hemp] at hm
    simp only [Option.some.injEq] at hm
    subst hm
    constructor
    · intro _
      refine ⟨rfl, ?_⟩
      unfold dispatchPlugin
      simp [hemp, hs]
    · intro s rest hsub
      simp at hsub
  · rw [if_neg hemp] at hm
    cases toks with
    | nil =>
      simp only [Option.some.injEq] at hm
      subst hm
      exact ⟨fun hh => absurd hh hemp, fun s rest hsub => by simp at hsub⟩
    | cons t rest =>
      simp only [] at hm
      by_cases hc : ((m.commands.map fun sc => sc.name).contains t) = true
      · rw [if_pos hc] at hm
        simp only [Option.some.injEq] at hm
        subst hm
        refine ⟨fun hh => absurd hh hemp, ?_⟩
        intro s rest' hsub
        simp only [Option.some.injEq, Prod.mk.injEq] at hsub
        obtain ⟨hs1, hs2⟩ := hsub
        subst hs1
        subst hs2
        refine ⟨rfl, hc, ?_⟩
        unfold dispatchPlugin
        simp [hs]
      · rw [if_neg hc] at hm
        simp at hm

def mGreet : Manifest := ⟨"greet", "says hi", "1.0", [⟨"hello", "say hello"⟩]⟩

def regGreet : Registry :=
  ⟨true, [mkFile "greet" "#!/usr/bin/env uv".data true,
    mkFile "greet.json" (renderManifest mGreet) false]⟩

/-- Claim C1 (code bug): the claim holds on the descent path and for
plugins with no declared subcommands (see `dispatch_forwarding`), but its
"otherwise" branch is broken in the code: the bare invocation `uni greet`
of a registered plugin that declares subcommands matches the plugin node
with no descent and no trailing tokens, so the claim requires the child to
be spawned with argv `[]` and its exit code propagated; the code instead
panics inside clap's `ArgMatches::get_raw("args")` — `build_cli`
(main.rs lines 412-424) attaches the `args` collector only to subcommand
nodes, or to the plugin node itself only when `commands` is empty, and
clap's `get_raw` panics on an argument id the matched command does not
define (main.rs line 527) — so the process aborts with the panic exit code
101 and no child is ever spawned. -/
theorem c1_bare_dispatch_panics :
    matchPluginTokens mGreet [] = some ⟨none, []⟩ ∧
    scriptRunnable regGreet mGreet.name = true ∧
    (∀ child : List String → Option Int,
      dispatchPlugin regGreet mGreet ⟨none, []⟩ child = .panicked clapPanicMsg ∧
      dispatchExitCode (dispatchPlugin regGreet mGreet ⟨none, []⟩ child) = 101) :=
  ⟨rfl, rfl, fun _ => ⟨rfl, rfl⟩⟩

def mSolo : Manifest := ⟨"solo", "alone", "0.1", []⟩

/-- Claim C4, counterexample to the claim as stated: dispatching the
matched plugin `solo` when no script is stored in the registry yields the
propagated spawn error — the raw OS diagnostic, which is not an
"unknown command or plugin" report; the code performs no existence check
before exec (main.rs lines 530-531 go straight from `plugin_dir().join`
to `Cmd::new(..).status()?`). -/
theorem c4_missing_script_cx :
    dispatchPlugin ⟨true, []⟩ mSolo ⟨none, []⟩ (fun _ => some 0) =
      .ioError "No such file or directory (os error 2)" ∧
    ¬ ("No such file or directory (os error 2)" = "unknown command or plugin") :=
  ⟨rfl, by decide⟩

/-- Claim C4 (amended): when the matched plugin name has no runnable stored
script, the spawn attempt itself fails, `main` propagates the I/O error
(the OS "No such file or directory" diagnostic, not an "unknown command or
plugin" message), and the process exits with the non-zero status 1 rather
than crashing — on every dispatch path that reaches the spawn. -/
theorem c4_missing_script_amended (r : Registry) (m : Manifest) (pm : PluginMatch)
    (child : List String → Option Int)
    (hs : scriptRunnable r m.name = false)
    (hnp : (∃ s rest, pm.sub = some (s, rest)) ∨ (pm.sub = none ∧ m.commands.isEmpty = true)) :
    dispatchPlugin r m pm child = .ioError "No such file or directory (os error 2)" ∧
    dispatchExitCode (dispatchPlugin r m pm child) = 1 ∧
    ¬ dispatchExitCode (dispatchPlugin r m pm child) = 0 := by
  have hd : dispatchPlugin r m pm child = .ioError "No such file or directory (os error 2)" := by
    unfold dispatchPlugin
    rcases hnp with ⟨s, rest, hsub⟩ | ⟨hsub, hemp⟩
    · rw [hsub]
      simp [hs]
    · rw [hsub]
      simp [hs, hemp]
  refine ⟨hd, ?_, ?_⟩
  · rw [hd]
    rfl
  · rw [hd]
    decide

theorem c4_missing_script_witness :
    scriptRunnable ⟨true, []⟩ mSolo.name = false ∧
    ((dispatchPlugin ⟨true, []⟩ mSolo ⟨none, ["a"]⟩ (fun _ => some 7) =
        .ioError "No such file or directory (os error 2)") ∧
      dispatchExitCode (dispatchPlugin ⟨true, []⟩ mSolo ⟨none, ["a"]⟩ (fun _ => some 7)) = 1 ∧
      ¬ dispatchExitCode (dispatchPlugin ⟨true, []⟩ mSolo ⟨none, ["a"]⟩ (fun _ => some 7)) = 0) :=
  ⟨rfl, c4_missing_script_amended ⟨true, []⟩ mSolo ⟨none, ["a"]⟩ (fun _ => some 7) rfl
    (Or.inr ⟨rfl, rfl⟩)⟩

/-- What makes one admission attempt fail: the interpreter could not be
spawned, or the introspection output is not well-formed Manifest JSON. -/
def admissionFails (sp : Except String ProcOutput) : Prop :=
  match sp with
  | .error _ => True
  | .ok out => parseManifestBytes out.stdout = none

/-- The error message a failed admission produces. -/
def failMsg : Except String ProcOutput → String
  | .error e => e
  | .ok _ => "invalid manifest JSON"

theorem validate_and_copy_fail_eq (r : Registry) (b : List Char) (n : String)
    (sp : Except String ProcOutput) (h : admissionFails sp) :
    (validate_and_copy r b n sp).2.1 = r ∧
    (validate_and_copy r b n sp).2.2 = .error (failMsg sp) := by
  cases sp with
  | error e => exact ⟨rfl, rfl⟩
  | ok out =>
    unfold admissionFails at h
    unfold validate_and_copy failMsg
    simp only []
    rw [h]
    exact ⟨rfl, rfl⟩

/-- Claim C8: import runs every extracted regular file whose name does not
end in the sidecar extension through the admission pipeline, ignores
sidecar-extension entries entirely, and isolates a failing entry: it is
reported per-entry (`skipped`) and leaves the registry untouched, and the
remaining entries are processed exactly as they would have been without
it. -/
theorem c8_import_isolation (r : Registry) (xs ys : List ArchiveEntry) (e : ArchiveEntry)
    (introspect : List Char → Except String ProcOutput)
    (hfile : e.isFile = true) (hjson : hasJsonExt e.name = false)
    (hfail : admissionFails (introspect e.content)) :
    import_plugins r (xs ++ e :: ys) introspect =
      ((import_plugins (import_plugins r xs introspect).1 ys introspect).1,
        (import_plugins r xs introspect).2 ++
          ImportReport.skipped e.name (failMsg (introspect e.content)) ::
            (import_plugins (import_plugins r xs introspect).1 ys introspect).2) ∧
    (∀ a : ArchiveEntry, hasJsonExt a.name = true → import_plugins r [a] introspect = (r, [])) := by
  constructor
  · unfold import_plugins
    induction xs generalizing r with
    | nil =>
      obtain ⟨hreg, herr⟩ :=
        validate_and_copy_fail_eq r e.content e.name (introspect e.content) hfail
      simp only [List.nil_append, importGo]
      rw [hjson]
      simp only [Bool.false_eq_true, if_false, hfile, not_true, ite_false]
      rw [herr, hreg]
    | cons x xs ih =>
      simp only [List.cons_append, importGo]
      by_cases h1 : hasJsonExt x.name = true
      · simp only [h1, if_true]
        exact ih _
      · simp only [h1, Bool.false_eq_true, if_false]
        by_cases h2 : x.isFile = true
        · simp only [h2, not_true, ite_false]
          simp only [List.append_eq]
          rw [ih _]
          simp [List.cons_append]
        · simp only [h2, not_false_iff, ite_true]
          exact ih _
  · intro a ha
    unfold import_plugins
    simp [importGo, ha]

def introW : List Char → Except String ProcOutput :=
  fun content => if content = "G".data then .ok ⟨true, outW.stdout, []⟩
    else .ok ⟨true, "oops".data, []⟩

def eBad : ArchiveEntry := ⟨"bad.py", true, "B".data⟩

def xsW : List ArchiveEntry := [⟨"skip.json", true, "ignored".data⟩]

def ysW : List ArchiveEntry := [⟨"good.py", true, "G".data⟩]

theorem c8_import_witness :
    eBad.isFile = true ∧ hasJsonExt eBad.name = false ∧ admissionFails (introW eBad.content) ∧
    (import_plugins ⟨true, []⟩ (xsW ++ eBad :: ysW) introW =
      ((import_plugins (import_plugins ⟨true, []⟩ xsW introW).1 ysW introW).1,
        (import_plugins ⟨true, []⟩ xsW introW).2 ++
          ImportReport.skipped eBad.name (failMsg (introW eBad.content)) ::
            (import_plugins (import_plugins ⟨true, []⟩ xsW introW).1 ysW introW).2) ∧
      (∀ a : ArchiveEntry, hasJsonExt a.name = true →
        import_plugins ⟨true, []⟩ [a] introW = (⟨true, []⟩, []))) :=
  ⟨rfl, rfl, by show parseManifestBytes "oops".data = none; rfl,
    c8_import_isolation ⟨true, []⟩ xsW ysW eBad introW rfl rfl
      (by show parseManifestBytes "oops".data = none; rfl)⟩
